import Mathlib

/-!
# Verification of the ephemeral file-sharing backend

Shallow embedding of the Go backend (compression selection, chunked-upload
state machine, processing pipeline storage decisions, metadata/expiry lookups,
HTTP Range parsing, and download admission control), with theorems checking
the natural-language specification against the code.

Machine integers (Go `int64`) are modelled as `Int`, with explicit wrapping
(`wrap64`) at the spots where the Go code performs `int64` arithmetic that
could overflow.  Error messages are elided (`Unit` errors) since no claim
depends on their text.
-/

/-! ## Compression engine (`SelectCompressionType`, unnamed/part_003) -/

inductive CompressionType where
  | none
  | gzip
  | zstd
  | lz4
deriving DecidableEq, Repr

/-- ASCII lower-casing of a character, as applied by `strings.ToLower`
to the ASCII-only extension strings compared against below. -/
def lowerChar (c : Char) : Char :=
  if 'A' ≤ c ∧ c ≤ 'Z' then Char.ofNat (c.toNat + 32) else c

/-- `strings.ToLower` restricted to the ASCII case mapping. -/
def goToLower (s : String) : String :=
  ⟨s.data.map lowerChar⟩

/-- Helper for `filepathExt`: walk the reversed path; `acc` holds the
characters already passed, in original order.  Stops at a path separator;
on the first dot returns the dot together with everything after it. -/
def goExtRev : List Char → List Char → List Char
  | [], _ => []
  | c :: rest, acc =>
    if c = '/' then []
    else if c = '.' then '.' :: acc
    else goExtRev rest (c :: acc)

/-- Go `filepath.Ext`: the suffix beginning at the final dot in the final
path element; empty if there is no dot. -/
def filepathExt (path : String) : String :=
  ⟨goExtRev path.data.reverse []⟩

/-- The `compressedExts` map keys of `SelectCompressionType`, in source order. -/
def compressedExts : List String :=
  [".jpg", ".jpeg", ".png", ".gif", ".webp",
   ".mp4", ".mkv", ".avi", ".mov",
   ".mp3", ".aac", ".ogg", ".flac",
   ".zip", ".rar", ".7z", ".tar", ".gz",
   ".pdf"]

/-- `CompressionManager.SelectCompressionType` from the source: extension
check, then the size cascade (500 MiB / 100 MiB / 10 KiB / 10 MiB). -/
def SelectCompressionType (filename : String) (size : Int) : CompressionType :=
  let ext := goToLower (filepathExt filename)
  if compressedExts.contains ext then .none
  else if size > 500 * 1024 * 1024 then .none
  else if size > 100 * 1024 * 1024 then .lz4
  else if size < 1024 * 10 then .lz4
  else if size < 1024 * 1024 * 10 then .zstd
  else .lz4

/-! Spec-side rendering of the selection policy (claim C2), written from the
spec's words: extension names without dots, thresholds in MiB/KiB units. -/

def MiB : Int := 1024 * 1024

def KiB : Int := 1024

/-- The spec's "already-compressed" extension names, in the spec's order. -/
def alreadyCompressedNames : List String :=
  ["jpg", "jpeg", "png", "gif", "webp",
   "mp3", "aac", "ogg", "flac",
   "mp4", "mkv", "avi", "mov",
   "zip", "rar", "7z", "tar", "gz",
   "pdf"]

/-- The selection policy exactly as the spec states it: none for
already-compressed extensions; none above 500 MiB; lz4 above 100 MiB;
lz4 below 10 KiB; zstd below 10 MiB; otherwise lz4. -/
def specSelectCompression (filename : String) (size : Int) : CompressionType :=
  let ext := goToLower (filepathExt filename)
  if alreadyCompressedNames.any (fun n => ext == "." ++ n) then .none
  else if size > 500 * MiB then .none
  else if size > 100 * MiB then .lz4
  else if size < 10 * KiB then .lz4
  else if size < 10 * MiB then .zstd
  else .lz4

theorem compressedExts_contains_eq (ext : String) :
    compressedExts.contains ext
      = alreadyCompressedNames.any (fun n => ext == "." ++ n) := by
  rw [Bool.eq_iff_iff]
  simp only [compressedExts, alreadyCompressedNames, List.contains_cons,
    List.contains_nil, List.any_cons, List.any_nil, String.reduceAppend,
    Bool.or_eq_true, beq_iff_eq, or_false]
  tauto

/-- C2: `SelectCompressionType` implements exactly the selection policy the
spec states, for every filename and non-negative size: none for an
already-compressed extension; otherwise none when size > 500 MiB; otherwise
lz4 when size > 100 MiB; otherwise lz4 when size < 10 KiB; otherwise zstd
when size < 10 MiB; otherwise lz4. -/
theorem selectCompressionType_matches_spec (filename : String) (size : Int)
    (h : 0 ≤ size) :
    SelectCompressionType filename size = specSelectCompression filename size := by
  simp only [SelectCompressionType, specSelectCompression,
    compressedExts_contains_eq, MiB, KiB]
  norm_num

/-- Witness for C2 at a concrete input: a 5-byte `.txt` file. -/
theorem selectCompressionType_matches_spec_witness :
    SelectCompressionType "a.txt" 5 = specSelectCompression "a.txt" 5 :=
  selectCompressionType_matches_spec "a.txt" 5 (by norm_num)

/-! ## Chunked-upload state machine (`chunk_upload.go`) -/

/-- In-memory upload session (`ChunkUpload`): fields the claims depend on.
`receivedChunks` is the received mask, one entry per chunk
(`make([]bool, totalChunks)` at initiate, so its length is `totalChunks`). -/
structure ChunkUpload where
  uploadID : String
  totalChunks : Nat
  receivedChunks : List Bool
  lastActivity : Int
deriving DecidableEq, Repr

/-- Outcome of `UploadChunk` (HTTP response), after session lookup. -/
inductive UploadChunkResult where
  /-- 400 `Invalid chunk index`. -/
  | invalidIndex
  /-- 200 `Chunk already received`: early return before any file write. -/
  | alreadyReceived (chunkIndex : Int)
  /-- 200 `Chunk uploaded successfully` with the received count and
  completeness flag computed from the updated mask. -/
  | saved (chunkIndex : Int) (receivedChunks : Nat) (totalChunks : Nat)
      (complete : Bool)
deriving DecidableEq, Repr

/-- `ChunkUploadManager.UploadChunk`, from the bounds check on: validates the
index, returns early when the chunk is already marked received, otherwise
writes the chunk file, flips the mask bit and advances `last_activity`.
Returns (new session, whether the chunk file was written, response). -/
def UploadChunk (upload : ChunkUpload) (chunkIndex : Int) (now : Int) :
    ChunkUpload × Bool × UploadChunkResult :=
  if chunkIndex < 0 ∨ chunkIndex ≥ (upload.totalChunks : Int) then
    (upload, false, .invalidIndex)
  else if upload.receivedChunks.getD chunkIndex.toNat false then
    (upload, false, .alreadyReceived chunkIndex)
  else
    let newMask := upload.receivedChunks.set chunkIndex.toNat true
    ({ upload with receivedChunks := newMask, lastActivity := now }, true,
      .saved chunkIndex (newMask.count true) upload.totalChunks
        (newMask.all (· = true)))

/-- Index of the first `false` entry, as found by `CompleteUpload`'s
`for i, received := range upload.ReceivedChunks` loop. -/
def firstMissingIdx : List Bool → Option Nat
  | [] => none
  | b :: rest => if b then (firstMissingIdx rest).map (· + 1) else some 0

/-- A processing job as created by `CompleteUpload`. -/
structure ProcessingJob where
  jobID : String
  uploadID : String
  fileID : String
  status : String
  progress : Int
deriving DecidableEq, Repr

/-- Outcome of `CompleteUpload` after session lookup. -/
inductive CompleteUploadResult where
  /-- 400 `Missing chunks` with the reported `missing_chunk` index. -/
  | missingChunk (missingChunk : Nat)
  /-- 202 Accepted with `job_id`, `file_id`, `status: "pending"`. -/
  | accepted (job : ProcessingJob)
deriving DecidableEq, Repr

/-- `ChunkUploadManager.CompleteUpload`, from the mask scan on: reports the
first missing chunk with 400, or creates a pending `ProcessingJob` and
answers 202. `fileID`/`jobID` stand for the freshly generated identifiers. -/
def CompleteUpload (upload : ChunkUpload) (fileID jobID : String) :
    CompleteUploadResult :=
  match firstMissingIdx upload.receivedChunks with
  | some i => .missingChunk i
  | none => .accepted
      { jobID := jobID, uploadID := upload.uploadID, fileID := fileID,
        status := "pending", progress := 0 }

theorem firstMissingIdx_none_iff (l : List Bool) :
    firstMissingIdx l = none ↔ ∀ b ∈ l, b = true := by
  induction l with
  | nil => simp [firstMissingIdx]
  | cons b rest ih =>
    cases b <;> simp [firstMissingIdx, Option.map_eq_none, ih]

theorem firstMissingIdx_some_iff (l : List Bool) (i : Nat) :
    firstMissingIdx l = some i
      ↔ (l.getD i true = false ∧ ∀ k < i, l.getD k true = true) := by
  induction l generalizing i with
  | nil => simp [firstMissingIdx]
  | cons b rest ih =>
    cases b with
    | false =>
      rw [show firstMissingIdx (false :: rest) = some 0 from rfl]
      constructor
      · intro h
        obtain rfl : (0 : Nat) = i := Option.some.inj h
        simp
      · rintro ⟨hi, hk⟩
        cases i with
        | zero => rfl
        | succ j => simpa using hk 0 (Nat.succ_pos j)
    | true =>
      rw [show firstMissingIdx (true :: rest)
            = (firstMissingIdx rest).map (· + 1) from rfl]
      rw [Option.map_eq_some']
      constructor
      · rintro ⟨j, hj, rfl⟩
        obtain ⟨h1, h2⟩ := (ih j).mp hj
        refine ⟨by simpa using h1, ?_⟩
        intro k hk
        cases k with
        | zero => simp
        | succ m => simpa using h2 m (Nat.lt_of_succ_lt_succ hk)
      · rintro ⟨hi, hk⟩
        cases i with
        | zero => simp at hi
        | succ j =>
          refine ⟨j, (ih j).mpr ⟨by simpa using hi, ?_⟩, rfl⟩
          intro m hm
          simpa using hk (m + 1) (Nat.succ_lt_succ hm)

/-- C4: `CompleteUpload` succeeds — creating a `ProcessingJob` in status
`pending` and answering 202 with `job_id` and `file_id` — iff every entry of
the session's received mask is true; otherwise it answers 400 reporting the
smallest index whose mask entry is false as `missing_chunk`. -/
theorem completeUpload_succeeds_iff (upload : ChunkUpload) (fileID jobID : String) :
    (CompleteUpload upload fileID jobID
        = .accepted
            { jobID := jobID, uploadID := upload.uploadID, fileID := fileID,
              status := "pending", progress := 0 }
      ↔ ∀ b ∈ upload.receivedChunks, b = true)
  ∧ (∀ i, CompleteUpload upload fileID jobID = .missingChunk i
      ↔ (upload.receivedChunks.getD i true = false
          ∧ ∀ k < i, upload.receivedChunks.getD k true = true)) := by
  constructor
  · rw [← firstMissingIdx_none_iff]
    unfold CompleteUpload
    cases h : firstMissingIdx upload.receivedChunks <;> simp [h]
  · intro i
    rw [← firstMissingIdx_some_iff]
    unfold CompleteUpload
    cases h : firstMissingIdx upload.receivedChunks <;> simp [h]

/-- Witness for C4 at a concrete session: mask `[true, false]` is rejected
with `missing_chunk = 1`, the smallest missing index. -/
theorem completeUpload_succeeds_iff_witness :
    CompleteUpload
        { uploadID := "u", totalChunks := 2, receivedChunks := [true, false],
          lastActivity := 0 } "f" "j"
      = .missingChunk 1 :=
  ((completeUpload_succeeds_iff
      { uploadID := "u", totalChunks := 2, receivedChunks := [true, false],
        lastActivity := 0 } "f" "j").2 1).mpr (by decide)

theorem getD_set_true (l : List Bool) (i j : Nat)
    (h : l.getD j false = true) : (l.set i true).getD j false = true := by
  induction l generalizing i j with
  | nil => simpa using h
  | cons b rest ih =>
    cases i with
    | zero =>
      cases j with
      | zero => simp
      | succ m => simpa using h
    | succ n =>
      cases j with
      | zero => simpa using h
      | succ m => simpa using ih n m (by simpa using h)

/-- C5: re-posting an already-received chunk returns success
(`alreadyReceived`) without writing the chunk file and leaves the session —
hence its received mask and count — unchanged; and `UploadChunk` never flips
a mask bit from true back to false, whatever index is posted. -/
theorem uploadChunk_idempotent_and_monotone (upload : ChunkUpload)
    (chunkIndex : Int) (now : Int) :
    (0 ≤ chunkIndex → chunkIndex < (upload.totalChunks : Int) →
        upload.receivedChunks.getD chunkIndex.toNat false = true →
        UploadChunk upload chunkIndex now
          = (upload, false, .alreadyReceived chunkIndex))
  ∧ (∀ j : Nat, upload.receivedChunks.getD j false = true →
        (UploadChunk upload chunkIndex now).1.receivedChunks.getD j false
          = true) := by
  constructor
  · intro h0 hlt hrec
    unfold UploadChunk
    rw [if_neg (by omega), if_pos hrec]
  · intro j hj
    unfold UploadChunk
    by_cases hb : chunkIndex < 0 ∨ chunkIndex ≥ (upload.totalChunks : Int)
    · rw [if_pos hb]; exact hj
    · rw [if_neg hb]
      by_cases hrec : upload.receivedChunks.getD chunkIndex.toNat false
      · rw [if_pos hrec]; exact hj
      · rw [if_neg hrec]
        exact getD_set_true _ _ _ hj

/-- Witness for C5 at a concrete session: re-posting chunk 0 of mask
`[true, false]` answers `alreadyReceived` and changes nothing. -/
theorem uploadChunk_idempotent_and_monotone_witness :
    UploadChunk
        { uploadID := "u", totalChunks := 2, receivedChunks := [true, false],
          lastActivity := 0 } 0 7
      = ({ uploadID := "u", totalChunks := 2,
           receivedChunks := [true, false], lastActivity := 0 }, false,
         .alreadyReceived 0) :=
  (uploadChunk_idempotent_and_monotone
      { uploadID := "u", totalChunks := 2, receivedChunks := [true, false],
        lastActivity := 0 } 0 7).1 (by decide) (by decide) (by decide)

/-! ## Metadata store and retrieval (`database.go`, `handlers.go`) -/

/-- A row of the `files` table, restricted to the fields the claims need. -/
structure FileRow where
  id : String
  expiresAt : Int
  hasDownloadPassword : Bool
  downloadPassword : String
deriving DecidableEq, Repr

/-- `Database.GetFile`: `SELECT ... FROM files WHERE id = $1 AND
expires_at > NOW()` — a row whose `expires_at` is not strictly in the
future is treated as absent (`nil, nil`). -/
def GetFile (rows : List FileRow) (fileID : String) (now : Int) :
    Option FileRow :=
  rows.find? (fun r => r.id == fileID && now < r.expiresAt)

/-- `Database.GetFileMetadata`: same `WHERE id = $1 AND expires_at > NOW()`
filter, without the content column. -/
def GetFileMetadata (rows : List FileRow) (fileID : String) (now : Int) :
    Option FileRow :=
  rows.find? (fun r => r.id == fileID && now < r.expiresAt)

/-- The `getFile` handler after the database lookup returned a row:
`metadata.ExpiresAt.Before(time.Now())` → 404, then the download-password
check (admin token bypasses) → 401, else the file is served (200). -/
def getFileAfterLookup (r : FileRow) (now : Int) (providedPassword : String)
    (isAdminAccess : Bool) : Nat :=
  if r.expiresAt < now then 404
  else if r.hasDownloadPassword
      && (!isAdminAccess && !(providedPassword == r.downloadPassword)) then 401
  else 200

/-- The `getFile` handler (after semaphore admission): nil row → 404,
otherwise the expiry and password checks above. -/
def getFileHandlerStatus (rows : List FileRow) (fileID : String) (now : Int)
    (providedPassword : String) (isAdminAccess : Bool) : Nat :=
  match GetFile rows fileID now with
  | none => 404
  | some r => getFileAfterLookup r now providedPassword isAdminAccess

/-- C6: an expired descriptor is never served.  (a) When every row with the
requested id has `expires_at ≤ now`, the store lookup reports the file absent
and the download handler answers 404; (b) independently, the handler's own
re-check answers 404 for any descriptor whose `expires_at` is in the past,
whatever the password situation. -/
theorem expired_file_not_retrievable (rows : List FileRow) (fileID : String)
    (now : Int) (pw : String) (adminOk : Bool) :
    ((∀ r ∈ rows, r.id = fileID → r.expiresAt ≤ now) →
        GetFile rows fileID now = none
          ∧ getFileHandlerStatus rows fileID now pw adminOk = 404)
  ∧ (∀ r : FileRow, r.expiresAt < now →
        getFileAfterLookup r now pw adminOk = 404) := by
  constructor
  · intro h
    have hfind : GetFile rows fileID now = none := by
      unfold GetFile
      rw [List.find?_eq_none]
      intro r hr
      simp only [Bool.and_eq_true, beq_iff_eq, decide_eq_true_eq, not_and]
      intro hid
      exact not_lt.mpr (h r hr hid)
    exact ⟨hfind, by unfold getFileHandlerStatus; rw [hfind]⟩
  · intro r hr
    unfold getFileAfterLookup
    rw [if_pos hr]

/-- Witness for C6: a single row expired exactly at `now` is not retrievable. -/
theorem expired_file_not_retrievable_witness :
    GetFile [{ id := "f1", expiresAt := 50, hasDownloadPassword := false,
               downloadPassword := "" }] "f1" 50 = none
  ∧ getFileHandlerStatus
      [{ id := "f1", expiresAt := 50, hasDownloadPassword := false,
         downloadPassword := "" }] "f1" 50 "" false = 404 :=
  (expired_file_not_retrievable
      [{ id := "f1", expiresAt := 50, hasDownloadPassword := false,
         downloadPassword := "" }] "f1" 50 "" false).1 (by decide)

/-! ## Admin expiry extension (`updateFileExpiration`) vs `getMetadata` -/

/-- The Redis `file:<id>` metadata mirror entry (expiry field only). -/
structure CacheEntry where
  id : String
  expiresAt : Int
deriving DecidableEq, Repr

/-- The state the two handlers touch: the `files` table and the Redis
`file:` metadata mirror. -/
structure BackendState where
  db : List FileRow
  cache : List CacheEntry
deriving DecidableEq, Repr

/-- Outcome of `updateFileExpiration`. -/
inductive UpdateExpirationResult where
  /-- 404 `File not found` (no `file:<id>` key in Redis). -/
  | notFound
  /-- 400 `Expiration time must be in the future`. -/
  | badRequest
  /-- 200 with the updated state and the new `expires_at`. -/
  | ok (newState : BackendState) (newExpiresAt : Int)
deriving DecidableEq, Repr

/-- `updateFileExpiration` on the success path of admin auth and timestamp
parsing: reads the metadata from the Redis `file:` mirror (404 if absent),
rejects a non-future timestamp with 400, and otherwise rewrites only the
Redis entries (`file:` key, `content:` TTL, `files` sorted set) — the
PostgreSQL `files` row is never updated. -/
def updateFileExpiration (st : BackendState) (fileID : String)
    (newExpiresAt : Int) (now : Int) : UpdateExpirationResult :=
  match st.cache.find? (fun e => e.id == fileID) with
  | none => .notFound
  | some _ =>
      if newExpiresAt - now ≤ 0 then .badRequest
      else .ok
        { st with cache := st.cache.map (fun e =>
            if e.id == fileID then { e with expiresAt := newExpiresAt } else e) }
        newExpiresAt

/-- Outcome of `getMetadata`. -/
inductive MetadataResult where
  | notFound
  /-- 200 with the descriptor's `expires_at` (among other safe fields). -/
  | ok (expiresAt : Int)
deriving DecidableEq, Repr

/-- The `getMetadata` handler: reads the descriptor through
`Database.GetFileMetadata` (PostgreSQL), never through the Redis mirror. -/
def getMetadata (st : BackendState) (fileID : String) (now : Int) :
    MetadataResult :=
  match GetFileMetadata st.db fileID now with
  | none => .notFound
  | some r => .ok r.expiresAt

/-- C1 (failing input evaluated): a file whose PostgreSQL row and Redis
mirror both expire at 100; at `now = 50` the admin sets the expiry to 200 and
gets 200 back, but `GET /metadata/:id` still reports the old value 100 —
`updateFileExpiration` wrote only the Redis mirror — and once the original
expiry passes (`now = 150`) the metadata endpoint answers 404 even though the
admin extended the file to 200. -/
theorem updateExpiration_not_reflected_in_metadata :
    updateFileExpiration
        { db := [{ id := "f1", expiresAt := 100, hasDownloadPassword := false,
                   downloadPassword := "" }],
          cache := [{ id := "f1", expiresAt := 100 }] } "f1" 200 50
      = .ok
          { db := [{ id := "f1", expiresAt := 100, hasDownloadPassword := false,
                     downloadPassword := "" }],
            cache := [{ id := "f1", expiresAt := 200 }] } 200
  ∧ getMetadata
        { db := [{ id := "f1", expiresAt := 100, hasDownloadPassword := false,
                   downloadPassword := "" }],
          cache := [{ id := "f1", expiresAt := 200 }] } "f1" 50
      = .ok 100
  ∧ getMetadata
        { db := [{ id := "f1", expiresAt := 100, hasDownloadPassword := false,
                   downloadPassword := "" }],
          cache := [{ id := "f1", expiresAt := 200 }] } "f1" 150
      = .notFound
  ∧ (100 : Int) ≠ 200 := by
  refine ⟨?_, ?_, ?_, by decide⟩ <;> decide

/-! ## Processing pipeline: disk-space preflight and storage decision -/

/-- 1 GiB, the extra buffer `checkDiskSpace` demands on top of the
requested bytes. -/
def gib : Int := 1024 * 1024 * 1024

/-- `ChunkUploadManager.checkDiskSpace`: errors unless
`availableBytes ≥ requiredBytes + 1 GiB` (`minRequired`). -/
def checkDiskSpace (availableBytes requiredBytes : Int) : Except Unit Unit :=
  if availableBytes < requiredBytes + gib then .error () else .ok ()

/-- `ChunkUploadManager.assembleFileStreaming`: preflight
`checkDiskSpace(upload.TotalSize * 2)` before the assembled file is created;
on success the chunk files are concatenated in index order.  `chunks` are the
chunk contents; I/O errors other than the space check are not modelled. -/
def assembleFileStreaming (availableBytes totalSize : Int)
    (chunks : List (List Nat)) : Except Unit (List Nat) :=
  match checkDiskSpace availableBytes (totalSize * 2) with
  | .error e => .error e
  | .ok _ => .ok chunks.flatten

/-- C8 counterexample: with 2048 bytes available and `total_size = 1024`,
the available bytes are at least 2 × total_size, yet the pipeline fails the
assembly with the insufficient-space error — the check the code performs is
not `available ≥ 2 × total_size`. -/
theorem assemble_preflight_claim_cex :
    (2048 : Int) ≥ 2 * 1024
  ∧ assembleFileStreaming 2048 1024 [] = .error () := by
  constructor
  · norm_num
  · rfl

/-- C8 amended: the pre-flight check that gates assembly is
`available ≥ 2 × total_size + 1 GiB`; when it fails, the job fails with the
insufficient-space error and no assembled file is produced, and when it
holds, assembly proceeds and yields the chunks concatenated in order. -/
theorem assemble_preflight_iff (availableBytes totalSize : Int)
    (chunks : List (List Nat)) :
    (assembleFileStreaming availableBytes totalSize chunks = .error ()
      ↔ availableBytes < totalSize * 2 + gib)
  ∧ (assembleFileStreaming availableBytes totalSize chunks
        = .ok chunks.flatten
      ↔ availableBytes ≥ totalSize * 2 + gib) := by
  unfold assembleFileStreaming checkDiskSpace
  by_cases h : availableBytes < totalSize * 2 + gib
  · rw [if_pos h]
    simp [h, not_le.mpr h]
  · rw [if_neg h]
    simp [h, ge_iff_le, le_of_not_lt h]

/-! ## Storing the assembled file (`storeAssembledFileStreaming`) -/

/-- Storage decision recorded for a stored blob: the `storage_type` column
("disk" or "postgresql") and the `compression_type` column. -/
structure StoredBlobRecord where
  storageType : String
  compressionType : String
deriving DecidableEq, Repr

def compressionTypeStr : CompressionType → String
  | .none => "none"
  | .gzip => "gzip"
  | .zstd => "zstd"
  | .lz4 => "lz4"

/-- `ChunkUploadManager.storeAssembledFile` (the non-streaming path):
contents over 100 MiB skip compression; otherwise the compression engine
selects a codec and compresses (the compressed length is an input oracle,
`compressedLenOracle`, since the codecs are external libraries; for `none`
the content is passed through unchanged).  Blobs whose compressed length
exceeds 1 GiB go to disk, the rest into PostgreSQL. -/
def storeAssembledFile (filename : String) (contentLen : Int)
    (compressedLenOracle : Int) : StoredBlobRecord :=
  let ct : CompressionType × Int :=
    if contentLen > 100 * 1024 * 1024 then (.none, contentLen)
    else
      let c := SelectCompressionType filename contentLen
      (c, if c = .none then contentLen else compressedLenOracle)
  { storageType :=
      if ct.2 > 1024 * 1024 * 1024 then "disk" else "postgresql",
    compressionType := compressionTypeStr ct.1 }

/-- `ChunkUploadManager.storeAssembledFileStreaming`: an assembled file
larger than 100 MiB is stored directly on disk with `compression_type`
"none" and `storage_type` "disk", without consulting the compression
engine; smaller files go through `storeAssembledFile`. -/
def storeAssembledFileStreaming (filename : String) (fileSize : Int)
    (compressedLenOracle : Int) : StoredBlobRecord :=
  if fileSize > 100 * 1024 * 1024 then
    { storageType := "disk", compressionType := "none" }
  else storeAssembledFile filename fileSize compressedLenOracle

/-- C3 counterexample: the claim's own example — a completed chunked upload
of a 150 MiB `.bin` file (157286400 bytes, ≤ 500 MiB, extension not in the
already-compressed set) — is stored external (on disk) but with compression
"none", not lz4. -/
theorem storeAssembled_150MiB_not_lz4 :
    storeAssembledFileStreaming "big.bin" 157286400 0
      = { storageType := "disk", compressionType := "none" }
  ∧ SelectCompressionType "big.bin" 157286400 = CompressionType.lz4
  ∧ ("none" : String) ≠ "lz4" := by
  refine ⟨by rfl, by rfl, by decide⟩

/-- C3 amended: every assembled file larger than 100 MiB — in particular one
in (100 MiB, 500 MiB] with an extension outside the already-compressed set —
is placed in external (disk) storage and recorded with compression "none";
the streaming store path never applies lz4. -/
theorem storeAssembledStreaming_large_disk_none (filename : String)
    (fileSize : Int) (compressedLenOracle : Int)
    (h : fileSize > 100 * 1024 * 1024) :
    storeAssembledFileStreaming filename fileSize compressedLenOracle
      = { storageType := "disk", compressionType := "none" } := by
  unfold storeAssembledFileStreaming
  rw [if_pos h]

/-- Witness for the amended C3 at the claim's 150 MiB input. -/
theorem storeAssembledStreaming_large_disk_none_witness :
    storeAssembledFileStreaming "big.bin" 157286400 0
      = { storageType := "disk", compressionType := "none" } :=
  storeAssembledStreaming_large_disk_none "big.bin" 157286400 0 (by norm_num)

/-! ## Download admission control (main, `getFile`, `previewFile`,
`fastStreamFile`)

The `golang.org/x/sync/semaphore.Weighted` semaphore itself is an external
library; its documented acquire/release contract is modelled by `semTryAcquire`
and `semRelease`.  Which handler acquires a permit, the permit count, and the
503 on refusal are taken from the source. -/

/-- The download semaphore's permit count:
`semaphore.NewWeighted(100)` in `main` (hard-coded, unlike the upload one). -/
def downloadSemaphorePermits : Int := 100

/-- The three download-side endpoints the claim speaks about. -/
inductive DownloadEndpoint where
  | getFile
  | previewFile
  | fastStreamFile
deriving DecidableEq, Repr

/-- Which endpoint body starts with `s.downloadSem.Acquire(ctx, 1)`:
`getFile` and `previewFile` do; `fastStreamFile` deliberately does not
("No semaphore acquisition for streaming"). -/
def acquiresDownloadPermit : DownloadEndpoint → Bool
  | .getFile => true
  | .previewFile => true
  | .fastStreamFile => false

/-- A weighted semaphore: capacity and currently held permits. -/
structure Semaphore where
  size : Int
  cur : Int
deriving DecidableEq, Repr

/-- `Weighted.Acquire(ctx, n)` at the moment the context gives up waiting:
succeeds now iff `cur + n ≤ size`. -/
def semTryAcquire (s : Semaphore) (n : Int) : Option Semaphore :=
  if s.cur + n ≤ s.size then some { s with cur := s.cur + n } else none

/-- `Weighted.Release(n)`. -/
def semRelease (s : Semaphore) (n : Int) : Semaphore :=
  { s with cur := s.cur - n }

/-- Admission outcome of running one download endpoint. -/
inductive HandlerAdmission where
  /-- The handler body ran; `duringBody` is the semaphore state while it ran. -/
  | served (duringBody : Semaphore)
  /-- 503 `Server busy, please try again later`. -/
  | busy503
deriving DecidableEq, Repr

/-- One run of a download endpoint against the download semaphore: permit
acquisition on entry when the endpoint acquires (503 on refusal, with a
`defer Release(1)` on success), no semaphore interaction otherwise. -/
def runDownloadEndpoint (ep : DownloadEndpoint) (s : Semaphore) :
    HandlerAdmission × Semaphore :=
  if acquiresDownloadPermit ep then
    match semTryAcquire s 1 with
    | none => (.busy503, s)
    | some s' => (.served s', semRelease s' 1)
  else (.served s, s)

/-- C9: the download semaphore has 100 permits; `getFile` and `previewFile`
each acquire exactly one permit for the duration of the body and release it
on completion (the semaphore is restored after every run), `fastStreamFile`
never touches the semaphore, and a failed acquisition is answered 503. -/
theorem downloadSemaphore_policy (ep : DownloadEndpoint) (s : Semaphore) :
    downloadSemaphorePermits = 100
  ∧ acquiresDownloadPermit .getFile = true
  ∧ acquiresDownloadPermit .previewFile = true
  ∧ acquiresDownloadPermit .fastStreamFile = false
  ∧ (runDownloadEndpoint ep s).2 = s
  ∧ (acquiresDownloadPermit ep = true → s.cur + 1 ≤ s.size →
      runDownloadEndpoint ep s
        = (.served { s with cur := s.cur + 1 }, s))
  ∧ (acquiresDownloadPermit ep = true → ¬(s.cur + 1 ≤ s.size) →
      runDownloadEndpoint ep s = (.busy503, s))
  ∧ (acquiresDownloadPermit ep = false →
      runDownloadEndpoint ep s = (.served s, s)) := by
  refine ⟨rfl, rfl, rfl, rfl, ?_, ?_, ?_, ?_⟩
  · unfold runDownloadEndpoint semTryAcquire semRelease
    by_cases ha : acquiresDownloadPermit ep
    · rw [if_pos ha]
      by_cases hc : s.cur + 1 ≤ s.size
      · rw [if_pos hc]
        show ({ s with cur := s.cur + 1 - 1 } : Semaphore) = s
        have h1 : s.cur + 1 - 1 = s.cur := by ring
        rw [h1]
      · rw [if_neg hc]
    · rw [if_neg ha]
  · intro ha hc
    unfold runDownloadEndpoint semTryAcquire semRelease
    rw [if_pos ha, if_pos hc]
    show (_, ({ s with cur := s.cur + 1 - 1 } : Semaphore))
        = (HandlerAdmission.served { s with cur := s.cur + 1 }, s)
    have : s.cur + 1 - 1 = s.cur := by ring
    rw [this]
  · intro ha hc
    unfold runDownloadEndpoint semTryAcquire
    rw [if_pos ha, if_neg hc]
  · intro ha
    unfold runDownloadEndpoint
    rw [if_neg (by simp [ha])]

/-- Witness for C9 at a concrete run: `getFile` against an idle semaphore
of capacity 100 is served holding one permit and restores the semaphore. -/
theorem downloadSemaphore_policy_witness :
    runDownloadEndpoint .getFile { size := 100, cur := 0 }
      = (.served { size := 100, cur := 1 }, { size := 100, cur := 0 }) :=
  ((downloadSemaphore_policy .getFile
      { size := 100, cur := 0 }).2.2.2.2.2.1) rfl (by norm_num)

/-! ## HTTP Range parsing (`parseRangeHeader`, `handleRangeRequestFromDB`)

Strings are processed as `List Char`.  Go `int64` arithmetic that can
overflow (`fileSize - suffix`) goes through `wrap64`. -/

def int64Max : Int := 2 ^ 63 - 1

def int64Min : Int := -(2 ^ 63)

/-- Two's-complement wrap-around of Go `int64` arithmetic. -/
def wrap64 (x : Int) : Int := (x + 2 ^ 63) % 2 ^ 64 - 2 ^ 63

/-- Decimal digit accumulator for `strconv.ParseInt`. -/
def digitsValAux : List Char → Nat → Option Nat
  | [], acc => some acc
  | c :: rest, acc =>
    if '0' ≤ c ∧ c ≤ '9' then digitsValAux rest (acc * 10 + (c.toNat - 48))
    else none

/-- A non-empty all-digit sequence, or failure. -/
def parseDigits : List Char → Option Nat
  | [] => none
  | c :: rest => digitsValAux (c :: rest) 0

/-- `strconv.ParseInt(s, 10, 64)`: optional sign, decimal digits, and the
`int64` range check (error on over/underflow). -/
def parseInt64L (s : List Char) : Option Int :=
  match s with
  | [] => none
  | c :: rest =>
    if c = '-' then
      match parseDigits rest with
      | none => none
      | some n => if (n : Int) ≤ 2 ^ 63 then some (-(n : Int)) else none
    else if c = '+' then
      match parseDigits rest with
      | none => none
      | some n => if (n : Int) ≤ int64Max then some (n : Int) else none
    else
      match parseDigits (c :: rest) with
      | none => none
      | some n => if (n : Int) ≤ int64Max then some (n : Int) else none

/-- ASCII whitespace, for `strings.TrimSpace`. -/
def isSpaceChar (c : Char) : Bool :=
  c = ' ' || c = '\t' || c = '\n' || c = '\r'

/-- `strings.TrimSpace`. -/
def trimSpaceL (l : List Char) : List Char :=
  ((l.dropWhile isSpaceChar).reverse.dropWhile isSpaceChar).reverse

/-- `strings.TrimPrefix`: drop the prefix when present, else unchanged. -/
def trimPrefixL (pre l : List Char) : List Char :=
  if pre.isPrefixOf l then l.drop pre.length else l

/-- `strings.Split` helper; `acc` holds the current field reversed. -/
def splitOnCharAux (sep : Char) : List Char → List Char → List (List Char)
  | [], acc => [acc.reverse]
  | c :: rest, acc =>
    if c = sep then acc.reverse :: splitOnCharAux sep rest []
    else splitOnCharAux sep rest (c :: acc)

/-- `strings.Split` on a single-character separator. -/
def splitOnChar (sep : Char) (l : List Char) : List (List Char) :=
  splitOnCharAux sep l []

/-- A byte range as built by `parseRangeHeader` (`Range` in the source;
the Go field `end` is a Lean keyword, rendered `stop`). -/
structure ByteRange where
  start : Int
  stop : Int
deriving DecidableEq, Repr

/-- One trimmed, possibly empty range spec, in the source's branch order:
empty → skipped; leading `-` → suffix range; trailing `-` → open-ended
start range; otherwise `start-end` split on `-` into exactly two parts. -/
def parseOneSpec (fileSize : Int) (spec : List Char) :
    Except Unit (Option ByteRange) :=
  if spec.isEmpty then .ok none
  else if spec.head? = some '-' then
    match parseInt64L spec.tail with
    | none => .error ()
    | some suffix =>
      let start0 := wrap64 (fileSize - suffix)
      let start := if start0 < 0 then 0 else start0
      .ok (some { start := start, stop := wrap64 (fileSize - 1) })
  else if spec.getLast? = some '-' then
    match parseInt64L spec.dropLast with
    | none => .error ()
    | some start =>
      if start ≥ fileSize then .error ()
      else .ok (some { start := start, stop := wrap64 (fileSize - 1) })
  else
    match splitOnChar '-' spec with
    | [p1, p2] =>
      match parseInt64L p1, parseInt64L p2 with
      | some start, some stop0 =>
        if start > stop0 ∨ start ≥ fileSize then .error ()
        else
          let stopv := if stop0 ≥ fileSize then wrap64 (fileSize - 1) else stop0
          .ok (some { start := start, stop := stopv })
      | _, _ => .error ()
    | _ => .error ()

/-- The loop of `parseRangeHeader`: trim each comma-separated spec, skip
empties, abort on the first malformed spec, collect ranges in order. -/
def parseSpecsAux (fileSize : Int) :
    List (List Char) → Except Unit (List ByteRange)
  | [] => .ok []
  | sp :: rest =>
    match parseOneSpec fileSize (trimSpaceL sp) with
    | .error e => .error e
    | .ok Option.none => parseSpecsAux fileSize rest
    | .ok (some r) =>
      match parseSpecsAux fileSize rest with
      | .error e => .error e
      | .ok rs => .ok (r :: rs)

/-- `parseRangeHeader`: strip an optional `bytes=` prefix, split on commas,
parse each spec. -/
def parseRangeHeader (rangeHeader : String) (fileSize : Int) :
    Except Unit (List ByteRange) :=
  parseSpecsAux fileSize
    (splitOnChar ',' (trimPrefixL "bytes=".data rangeHeader.data))

/-- Response of `handleRangeRequestFromDB` as far as status and the
`Content-Range` data go. -/
inductive RangeOutcome where
  /-- 416 with `Content-Range: bytes */<size>`. -/
  | notSatisfiable (size : Int)
  /-- 206 with `Content-Range: bytes <start>-<end>/<size>`. -/
  | partialContent (r : ByteRange) (size : Int)
deriving DecidableEq, Repr

/-- `handleRangeRequestFromDB`: parse failure → 416; any count of parsed
ranges other than exactly one → 416; a single range → 206 partial content. -/
def handleRangeRequestFromDB (rangeHeader : String) (size : Int) :
    RangeOutcome :=
  match parseRangeHeader rangeHeader size with
  | .error _ => .notSatisfiable size
  | .ok [r] => .partialContent r size
  | .ok _ => .notSatisfiable size

/-- C7 counterexample: the header value `0-0` — which is none of the forms
`bytes=start-end`, `bytes=start-`, `bytes=-suffix` — is accepted with 206:
the `bytes=` prefix is only trimmed when present, never required. -/
theorem rangeHeader_prefixless_accepted :
    handleRangeRequestFromDB "0-0" 10
      = .partialContent { start := 0, stop := 0 } 10
  ∧ ("bytes=".data.isPrefixOf "0-0".data) = false :=
  ⟨rfl, rfl⟩

/-- C7 amended: single-range specs of the three forms are accepted (the
`bytes=` prefix being optional), and a header that parses to a number of
ranges other than one, or that is syntactically invalid or unsatisfiable
(start ≥ file size), is answered 416 with `Content-Range: bytes */size`;
a header parsing to exactly one range is answered 206.  The closed conjuncts
exercise the three accepted forms and the rejected multi-range, unsatisfiable
and malformed cases at size 10. -/
theorem rangeRequest_single_range_policy (h : String) (size : Int) :
    (parseRangeHeader h size = .error () →
        handleRangeRequestFromDB h size = .notSatisfiable size)
  ∧ (∀ rs, parseRangeHeader h size = .ok rs → rs.length ≠ 1 →
        handleRangeRequestFromDB h size = .notSatisfiable size)
  ∧ (∀ r, parseRangeHeader h size = .ok [r] →
        handleRangeRequestFromDB h size = .partialContent r size)
  ∧ handleRangeRequestFromDB "bytes=2-5" 10
      = .partialContent { start := 2, stop := 5 } 10
  ∧ handleRangeRequestFromDB "bytes=2-" 10
      = .partialContent { start := 2, stop := 9 } 10
  ∧ handleRangeRequestFromDB "bytes=-3" 10
      = .partialContent { start := 7, stop := 9 } 10
  ∧ handleRangeRequestFromDB "bytes=0-1,2-3" 10 = .notSatisfiable 10
  ∧ handleRangeRequestFromDB "bytes=10-12" 10 = .notSatisfiable 10
  ∧ handleRangeRequestFromDB "bytes=abc" 10 = .notSatisfiable 10 := by
  refine ⟨?_, ?_, ?_, rfl, rfl, rfl, rfl, rfl, rfl⟩
  · intro hp
    unfold handleRangeRequestFromDB
    rw [hp]
  · intro rs hp hlen
    unfold handleRangeRequestFromDB
    rw [hp]
    cases rs with
    | nil => rfl
    | cons r rest =>
      cases rest with
      | nil => exact absurd rfl hlen
      | cons r2 rest2 => rfl
  · intro r hp
    unfold handleRangeRequestFromDB
    rw [hp]

/-- Witness for the amended C7: a two-range header is refused with 416. -/
theorem rangeRequest_single_range_policy_witness :
    handleRangeRequestFromDB "bytes=0-1,2-3" 10 = .notSatisfiable 10 :=
  (rangeRequest_single_range_policy "bytes=0-1,2-3" 10).2.1
    [{ start := 0, stop := 1 }, { start := 2, stop := 3 }] rfl (by decide)

/-! ## Bounds of parsed ranges (claim C10) -/

/-- The bounds property of C10 for one returned range. -/
def rangeWithinBounds (fileSize : Int) (r : ByteRange) : Prop :=
  0 ≤ r.start ∧ r.start ≤ r.stop ∧ r.stop ≤ fileSize - 1

instance (fileSize : Int) (r : ByteRange) :
    Decidable (rangeWithinBounds fileSize r) := by
  unfold rangeWithinBounds
  infer_instance

/-- C10 counterexample: `bytes=-0` against a file of size 10 parses
successfully to the single range (start 10, end 9), which violates
`start ≤ end ≤ fileSize - 1`. -/
theorem parseRange_bounds_cex :
    parseRangeHeader "bytes=-0" 10 = .ok [{ start := 10, stop := 9 }]
  ∧ ¬ rangeWithinBounds 10 { start := 10, stop := 9 } := by
  refine ⟨rfl, ?_⟩
  unfold rangeWithinBounds
  decide

theorem wrap64_eq_self (x : Int) (h1 : int64Min ≤ x) (h2 : x ≤ int64Max) :
    wrap64 x = x := by
  unfold wrap64
  simp only [int64Min, int64Max] at h1 h2
  rw [Int.emod_eq_of_lt (by omega) (by omega)]
  omega

theorem parseInt64L_le_max (s : List Char) (v : Int)
    (h : parseInt64L s = some v) : int64Min ≤ v ∧ v ≤ int64Max := by
  cases s with
  | nil => simp [parseInt64L] at h
  | cons c rest =>
    simp only [parseInt64L] at h
    by_cases hm : c = '-'
    · rw [if_pos hm] at h
      cases hd : parseDigits rest with
      | none => simp only [hd] at h; exact absurd h (by simp)
      | some n =>
        simp only [hd] at h
        by_cases hb : (n : Int) ≤ 2 ^ 63
        · rw [if_pos hb] at h
          obtain rfl : -(n : Int) = v := Option.some.inj h
          unfold int64Min int64Max
          omega
        · rw [if_neg hb] at h
          exact absurd h (by simp)
    · rw [if_neg hm] at h
      by_cases hpl : c = '+'
      · rw [if_pos hpl] at h
        cases hd : parseDigits rest with
        | none => simp only [hd] at h; exact absurd h (by simp)
        | some n =>
          simp only [hd] at h
          by_cases hb : (n : Int) ≤ int64Max
          · rw [if_pos hb] at h
            obtain rfl : (n : Int) = v := Option.some.inj h
            unfold int64Min int64Max at *
            omega
          · rw [if_neg hb] at h
            exact absurd h (by simp)
      · rw [if_neg hpl] at h
        cases hd : parseDigits (c :: rest) with
        | none => simp only [hd] at h; exact absurd h (by simp)
        | some n =>
          simp only [hd] at h
          by_cases hb : (n : Int) ≤ int64Max
          · rw [if_pos hb] at h
            obtain rfl : (n : Int) = v := Option.some.inj h
            unfold int64Min int64Max at *
            omega
          · rw [if_neg hb] at h
            exact absurd h (by simp)

theorem parseInt64L_nonneg (s : List Char) (v : Int)
    (hhead : s.head? ≠ some '-') (h : parseInt64L s = some v) : 0 ≤ v := by
  cases s with
  | nil => simp [parseInt64L] at h
  | cons c rest =>
    simp only [parseInt64L] at h
    have hm : ¬ c = '-' := fun hc => hhead (by simp [hc])
    rw [if_neg hm] at h
    by_cases hpl : c = '+'
    · rw [if_pos hpl] at h
      cases hd : parseDigits rest with
      | none => simp only [hd] at h; exact absurd h (by simp)
      | some n =>
        simp only [hd] at h
        by_cases hb : (n : Int) ≤ int64Max
        · rw [if_pos hb] at h
          obtain rfl : (n : Int) = v := Option.some.inj h
          exact Int.natCast_nonneg n
        · rw [if_neg hb] at h
          exact absurd h (by simp)
    · rw [if_neg hpl] at h
      cases hd : parseDigits (c :: rest) with
      | none => simp only [hd] at h; exact absurd h (by simp)
      | some n =>
        simp only [hd] at h
        by_cases hb : (n : Int) ≤ int64Max
        · rw [if_pos hb] at h
          obtain rfl : (n : Int) = v := Option.some.inj h
          exact Int.natCast_nonneg n
        · rw [if_neg hb] at h
          exact absurd h (by simp)

theorem splitOnCharAux_no_sep (sep : Char) (l : List Char) :
    ∀ acc, sep ∉ acc → ∀ p ∈ splitOnCharAux sep l acc, sep ∉ p := by
  induction l with
  | nil =>
    intro acc hacc p hp
    unfold splitOnCharAux at hp
    obtain rfl : p = acc.reverse := by simpa using hp
    intro hmem
    exact hacc (List.mem_reverse.mp hmem)
  | cons c rest ih =>
    intro acc hacc p hp
    unfold splitOnCharAux at hp
    by_cases hc : c = sep
    · rw [if_pos hc] at hp
      rcases List.mem_cons.mp hp with h1 | h2
      · subst h1
        intro hmem
        exact hacc (List.mem_reverse.mp hmem)
      · exact ih [] (by simp) p h2
    · rw [if_neg hc] at hp
      refine ih (c :: acc) ?_ p hp
      intro hmem
      rcases List.mem_cons.mp hmem with h1 | h2
      · exact hc h1.symm
      · exact hacc h2

theorem splitOnCharAux_head_shape (sep : Char) (l : List Char) :
    ∀ acc, ∃ q ps, splitOnCharAux sep l acc = (acc.reverse ++ q) :: ps := by
  induction l with
  | nil =>
    intro acc
    exact ⟨[], [], by simp [splitOnCharAux]⟩
  | cons c rest ih =>
    intro acc
    by_cases hc : c = sep
    · exact ⟨[], splitOnCharAux sep rest [],
        by simp only [splitOnCharAux]; rw [if_pos hc]; simp⟩
    · obtain ⟨q, ps, hq⟩ := ih (c :: acc)
      refine ⟨c :: q, ps, ?_⟩
      simp only [splitOnCharAux]
      rw [if_neg hc, hq]
      simp

theorem dropLast_head? (l : List Char) :
    l.dropLast.head? = none ∨ l.dropLast.head? = l.head? := by
  cases l with
  | nil => left; rfl
  | cons c rest =>
    cases rest with
    | nil => left; rfl
    | cons d rest2 => right; rfl

/-- The condition under which a suffix-form spec (`-suffix`) yields an
in-bounds range: the parsed suffix value, when it parses, is at least 1.
Non-suffix specs are unconstrained. -/
def suffixSpecOk (sp : List Char) : Bool :=
  if sp.head? = some '-' then
    match parseInt64L sp.tail with
    | some v => decide (1 ≤ v)
    | none => true
  else true

/-- `suffixSpecOk` for every trimmed comma-separated spec of the header,
mirroring the traversal of `parseRangeHeader`. -/
def suffixSpecsPositive (h : String) : Bool :=
  (splitOnChar ',' (trimPrefixL "bytes=".data h.data)).all
    (fun sp => suffixSpecOk (trimSpaceL sp))

theorem parseOneSpec_bounds (fileSize : Int) (sp : List Char) (r : ByteRange)
    (h1 : 1 ≤ fileSize) (h2 : fileSize ≤ int64Max)
    (hsuf : suffixSpecOk sp = true)
    (hp : parseOneSpec fileSize sp = .ok (some r)) :
    rangeWithinBounds fileSize r := by
  have hstop : wrap64 (fileSize - 1) = fileSize - 1 := by
    apply wrap64_eq_self <;> simp only [int64Min, int64Max] at h2 ⊢ <;> omega
  unfold parseOneSpec at hp
  by_cases hemp : sp.isEmpty
  · rw [if_pos hemp] at hp
    simp at hp
  rw [if_neg hemp] at hp
  by_cases hpre : sp.head? = some '-'
  · -- suffix form `-suffix`
    rw [if_pos hpre] at hp
    unfold suffixSpecOk at hsuf
    rw [if_pos hpre] at hsuf
    cases hv : parseInt64L sp.tail with
    | none => simp [hv] at hp
    | some suffix =>
      simp only [hv] at hp hsuf
      have hs1 : (1 : Int) ≤ suffix := by simpa using hsuf
      obtain ⟨hlo, hhi⟩ := parseInt64L_le_max _ _ hv
      have hws : wrap64 (fileSize - suffix) = fileSize - suffix := by
        apply wrap64_eq_self <;>
          simp only [int64Min, int64Max] at h2 hlo hhi ⊢ <;> omega
      simp only [Except.ok.injEq, Option.some.injEq] at hp
      subst hp
      unfold rangeWithinBounds
      simp only [hws, hstop]
      split_ifs <;> constructor <;> omega
  rw [if_neg hpre] at hp
  by_cases hlast : sp.getLast? = some '-'
  · -- open-ended form `start-`
    rw [if_pos hlast] at hp
    cases hv : parseInt64L sp.dropLast with
    | none => simp [hv] at hp
    | some start =>
      simp only [hv] at hp
      by_cases hge : start ≥ fileSize
      · rw [if_pos hge] at hp
        simp at hp
      rw [if_neg hge] at hp
      simp only [Except.ok.injEq, Option.some.injEq] at hp
      subst hp
      have hstart : 0 ≤ start := by
        refine parseInt64L_nonneg _ _ ?_ hv
        rcases dropLast_head? sp with hd | hd
        · rw [List.head?_eq_none_iff] at hd
          rw [hd] at hv
          simp [parseInt64L] at hv
        · rw [hd]
          exact hpre
      unfold rangeWithinBounds
      simp only [hstop]
      refine ⟨hstart, by omega, by omega⟩
  -- full form `start-end`
  rw [if_neg hlast] at hp
  obtain ⟨c, rest, rfl⟩ : ∃ c rest, sp = c :: rest := by
    cases sp with
    | nil => simp at hemp
    | cons c rest => exact ⟨c, rest, rfl⟩
  have hc : ¬ c = '-' := fun hcc => hpre (by simp [hcc])
  cases hsplit : splitOnChar '-' (c :: rest) with
  | nil => simp [hsplit] at hp
  | cons p1 ps =>
    cases ps with
    | nil => simp [hsplit] at hp
    | cons p2 ps2 =>
      cases ps2 with
      | cons p3 ps3 => simp [hsplit] at hp
      | nil =>
        simp only [hsplit] at hp
        cases hv1 : parseInt64L p1 with
        | none => simp [hv1] at hp
        | some start =>
          cases hv2 : parseInt64L p2 with
          | none => simp [hv1, hv2] at hp
          | some stop0 =>
            simp only [hv1, hv2] at hp
            by_cases hbad : start > stop0 ∨ start ≥ fileSize
            · rw [if_pos hbad] at hp
              simp at hp
            rw [if_neg hbad] at hp
            push_neg at hbad
            obtain ⟨hse, hsf⟩ := hbad
            simp only [Except.ok.injEq, Option.some.injEq] at hp
            subst hp
            have hp1 : p1.head? = some c := by
              have hstep : splitOnChar '-' (c :: rest)
                  = splitOnCharAux '-' rest [c] := by
                simp only [splitOnChar, splitOnCharAux]
                rw [if_neg hc]
              obtain ⟨q, ps', hq⟩ := splitOnCharAux_head_shape '-' rest [c]
              rw [hstep, hq] at hsplit
              have : c :: q = p1 := by
                have := (List.cons.injEq _ _ _ _).mp hsplit
                simpa using this.1
              rw [← this]
              rfl
            have hstart : 0 ≤ start := by
              refine parseInt64L_nonneg _ _ ?_ hv1
              rw [hp1]
              simp [hc]
            unfold rangeWithinBounds
            simp only [hstop]
            split_ifs <;> constructor <;> omega

theorem parseSpecsAux_bounds (fileSize : Int) (l : List (List Char))
    (h1 : 1 ≤ fileSize) (h2 : fileSize ≤ int64Max) :
    ∀ rs, l.all (fun sp => suffixSpecOk (trimSpaceL sp)) = true →
      parseSpecsAux fileSize l = .ok rs →
      ∀ r ∈ rs, rangeWithinBounds fileSize r := by
  induction l with
  | nil =>
    intro rs _ hp r hr
    simp only [parseSpecsAux] at hp
    obtain rfl : ([] : List ByteRange) = rs := by simpa using hp
    simp at hr
  | cons sp rest ih =>
    intro rs hsuf hp r hr
    simp only [List.all_cons, Bool.and_eq_true] at hsuf
    obtain ⟨hsp, hrest⟩ := hsuf
    simp only [parseSpecsAux] at hp
    cases ho : parseOneSpec fileSize (trimSpaceL sp) with
    | error e => simp [ho] at hp
    | ok o =>
      cases o with
      | none =>
        simp only [ho] at hp
        exact ih rs hrest hp r hr
      | some r0 =>
        simp only [ho] at hp
        cases hrec : parseSpecsAux fileSize rest with
        | error e => simp [hrec] at hp
        | ok rs0 =>
          simp only [hrec] at hp
          obtain rfl : r0 :: rs0 = rs := by simpa using hp
          rcases List.mem_cons.mp hr with hr1 | hr2
          · subst hr1
            exact parseOneSpec_bounds fileSize (trimSpaceL sp) r h1 h2 hsp ho
          · exact ih rs0 hrest hrec r hr2

/-- C10 amended: whenever `parseRangeHeader` succeeds on a file of positive
size (within the int64 range) and every suffix-form spec of the header has a
suffix value of at least 1, every returned range satisfies
`0 ≤ start ≤ end ≤ fileSize − 1`.  (The claim's "in particular" cases are
exactly the excluded ones: a suffix of 0, or a file of size 0, produces the
out-of-bounds range (fileSize, fileSize−1) — see the counterexample.) -/
theorem parseRangeHeader_bounds (h : String) (fileSize : Int)
    (rs : List ByteRange)
    (h1 : 1 ≤ fileSize) (h2 : fileSize ≤ int64Max)
    (hsuf : suffixSpecsPositive h = true)
    (hp : parseRangeHeader h fileSize = .ok rs) :
    ∀ r ∈ rs, rangeWithinBounds fileSize r := by
  unfold parseRangeHeader at hp
  unfold suffixSpecsPositive at hsuf
  exact parseSpecsAux_bounds fileSize _ h1 h2 rs hsuf hp

/-- Witness for the amended C10: the ranges parsed from
`bytes=0-4, -3` at size 10 are in bounds. -/
theorem parseRangeHeader_bounds_witness :
    rangeWithinBounds 10 { start := 0, stop := 4 }
  ∧ rangeWithinBounds 10 { start := 7, stop := 9 } :=
  ⟨parseRangeHeader_bounds "bytes=0-4, -3" 10
      [{ start := 0, stop := 4 }, { start := 7, stop := 9 }]
      (by norm_num) (by unfold int64Max; norm_num) rfl rfl
      { start := 0, stop := 4 } (by simp),
    parseRangeHeader_bounds "bytes=0-4, -3" 10
      [{ start := 0, stop := 4 }, { start := 7, stop := 9 }]
      (by norm_num) (by unfold int64Max; norm_num) rfl rfl
      { start := 7, stop := 9 } (by simp)⟩
